import Mathlib

/-!
# jerrod.cpp: the fixed-record contact store

A shallow embedding of `src/jerrod.cpp`.

* A `Contact` is the 2560-byte object of `struct Contact` (ten `char[256]`
  arrays, no padding), kept as its flat byte image: this is the image that
  `write_all_contacts` and `read_all_contacts` move to and from the file
  through `reinterpret_cast<char*>`, and the memory that `memset` and `strcpy`
  write through the `char* prev_val` of `prompt_field`.
* A `char*` into a contact is its byte offset inside the object. A write that
  stays inside the contact is modelled byte for byte, also when it leaves the
  member it started in; a read or write that leaves the contact is a `Fault`.
* `std::cin` is a list of reads still to come; when the list is used up the
  stream is at end of input and every further read fails. The index prompt and
  the field prompts take their reads from two lists.
* A function that never returns yields `Fault.diverges`.
* The file streams `gIn` and `gOut` carry no state from one call to the next:
  a successful `open` clears the stream flags.
* The `u_int` values (indices and sizes) are natural numbers; the program
  only compares them and subtracts one from a value that is at least one.
* Text written to `std::cout` is not part of the state and is not modelled,
  except in `dump_contact`, whose result is the nine values it prints.
-/

namespace Jerrod

/-- One `char`. -/
abbrev Byte := Fin 256

/-- The constant `FIELD_SZ` (line 9). -/
def FIELD_SZ : Nat := 256

/-- The constant `MAX_CONTACTS` (line 10). -/
def MAX_CONTACTS : Nat := 5

/-- The value of `sizeof (Contact)`: ten fields of `FIELD_SZ` chars (lines 42-54). -/
def CONTACT_SZ : Nat := 10 * FIELD_SZ

/-- The object of `struct Contact`, as its byte image. -/
structure Contact where
  bytes : List Byte
  size_eq : bytes.length = CONTACT_SZ
deriving DecidableEq

/-- The members of `struct Contact`, in declaration order. -/
inductive Field where
  | id | first_name | last_name | country | state
  | address_1 | address_2 | zip | home_phone | work_phone
deriving DecidableEq, Repr

/-- The value of `offsetof (Contact, f)`. -/
def Field.offset : Field → Nat
  | .id => 0 * FIELD_SZ
  | .first_name => 1 * FIELD_SZ
  | .last_name => 2 * FIELD_SZ
  | .country => 3 * FIELD_SZ
  | .state => 4 * FIELD_SZ
  | .address_1 => 5 * FIELD_SZ
  | .address_2 => 6 * FIELD_SZ
  | .zip => 7 * FIELD_SZ
  | .home_phone => 8 * FIELD_SZ
  | .work_phone => 9 * FIELD_SZ

/-- The 256 bytes of member `f` of a contact. -/
def Contact.slot (c : Contact) (f : Field) : List Byte :=
  (c.bytes.drop f.offset).take FIELD_SZ

/-- Ways in which a call fails to return a value. -/
inductive Fault where
  /-- The call loops forever. -/
  | diverges
  /-- The call reads or writes outside the contact object. -/
  | out_of_bounds
deriving DecidableEq, Repr

/-- Equality of results can be computed. -/
instance instDecidableEqResult {ε α : Type} [DecidableEq ε] [DecidableEq α] :
    DecidableEq (Except ε α)
  | .ok a, .ok b => if h : a = b then isTrue (by rw [h]) else isFalse (by simp [h])
  | .error a, .error b => if h : a = b then isTrue (by rw [h]) else isFalse (by simp [h])
  | .ok _, .error _ => isFalse (by simp)
  | .error _, .ok _ => isFalse (by simp)

/-- Overwrite `data.length` bytes of the object from offset `dst` on. -/
def Contact.write (c : Contact) (dst : Nat) (data : List Byte)
    (h : dst + data.length ≤ CONTACT_SZ) : Contact :=
  ⟨c.bytes.take dst ++ data ++ c.bytes.drop (dst + data.length), by
    have := c.size_eq
    simp only [List.length_append, List.length_take, List.length_drop]
    omega⟩

/-- The library call `memset (dst, ch, n)` on a pointer into a contact. -/
def memset (c : Contact) (dst : Nat) (ch : Byte) (n : Nat) : Except Fault Contact :=
  if h : dst + (List.replicate n ch).length ≤ CONTACT_SZ then
    .ok (c.write dst (List.replicate n ch) h)
  else
    .error .out_of_bounds

/-- The array `buf.c_str ()` of a `std::string`: its bytes and a final zero. -/
def c_str (buf : List Byte) : List Byte := buf ++ [0]

/-- The bytes `strcpy` moves from `src`: those before the first zero, and that zero. -/
def strcpy_bytes (src : List Byte) : List Byte :=
  src.takeWhile (fun b => b != 0) ++ [0]

/-- The library call `strcpy (dst, src)` on a pointer into a contact. It has no
bound: it writes wherever the bytes of `src` reach. -/
def strcpy (c : Contact) (dst : Nat) (src : List Byte) : Except Fault Contact :=
  if h : dst + (strcpy_bytes src).length ≤ CONTACT_SZ then
    .ok (c.write dst (strcpy_bytes src) h)
  else
    .error .out_of_bounds

/-- The C string at offset `p` of a contact, as `std::string (const char*)` and
`operator<<` read it: the bytes up to the first zero, which need not lie in the
member that `p` points to. -/
def c_string (c : Contact) (p : Nat) : Except Fault (List Byte) :=
  if (c.bytes.drop p).all (fun b => b != 0) then
    .error .out_of_bounds
  else
    .ok ((c.bytes.drop p).takeWhile (fun b => b != 0))

/-- One `std::getline (std::cin, buf)`: the line read and whether the stream
is good afterwards (`good = false` is the case `!std::cin`, together with
what `fix_cin` then discards). -/
structure Line where
  buf : List Byte
  good : Bool
deriving DecidableEq

/-- The `do ... while (bad_input)` loop of `prompt_field` (lines 214-256);
`bad_input` is the flag on entry to an iteration. With no input left `getline`
fails and leaves `buf` empty. -/
def prompt_field_loop (contact : Contact) (prev_val : Nat) (do_edit : Bool) :
    Bool → List Line → Except Fault (Contact × List Line)
  | _, [] =>
    if do_edit then
      .error .diverges
    else do
      let c1 ← memset contact prev_val 0 FIELD_SZ
      let c2 ← strcpy c1 prev_val (c_str [])
      pure (c2, [])
  | bad_input, l :: rest =>
    let bad_input := bad_input || !l.good
    if do_edit && l.buf.isEmpty then
      if bad_input then prompt_field_loop contact prev_val do_edit bad_input rest
      else .ok (contact, rest)
    else do
      let c1 ← memset contact prev_val 0 FIELD_SZ
      let c2 ← strcpy c1 prev_val (c_str l.buf)
      pure (c2, rest)

/-- The function `prompt_field` (lines 206-257): `prev_val` points to a member
of `contact`; the result is the contact afterwards and the input left. -/
def prompt_field (contact : Contact) (prev_val : Nat) (do_edit : Bool)
    (input : List Line) : Except Fault (Contact × List Line) :=
  prompt_field_loop contact prev_val do_edit false input

/-- The function `add_or_edit` (lines 260-272): one prompt for each of the nine
named members, in order. It has no `return`, so only its effect is modelled. -/
def add_or_edit (contact : Contact) (do_edit : Bool) (input : List Line) :
    Except Fault (Contact × List Line) := do
  let (contact, input) ← prompt_field contact Field.first_name.offset do_edit input
  let (contact, input) ← prompt_field contact Field.last_name.offset do_edit input
  let (contact, input) ← prompt_field contact Field.country.offset do_edit input
  let (contact, input) ← prompt_field contact Field.state.offset do_edit input
  let (contact, input) ← prompt_field contact Field.address_1.offset do_edit input
  let (contact, input) ← prompt_field contact Field.address_2.offset do_edit input
  let (contact, input) ← prompt_field contact Field.zip.offset do_edit input
  let (contact, input) ← prompt_field contact Field.home_phone.offset do_edit input
  let (contact, input) ← prompt_field contact Field.work_phone.offset do_edit input
  pure (contact, input)

/-- The bytes of an all-zero contact: the local of `add` after
`memset (&contact, 0, sizeof contact)` (lines 285-289), whatever it held before. -/
def Contact.zeroed : Contact :=
  ⟨List.replicate CONTACT_SZ 0, by simp⟩

/-- What `dump_contact` prints (lines 101-115): the nine named members, each
read as a C string, in the order printed. -/
def dump_contact (contact : Contact) : Except Fault (List (List Byte)) := do
  let first_name ← c_string contact Field.first_name.offset
  let last_name ← c_string contact Field.last_name.offset
  let country ← c_string contact Field.country.offset
  let state ← c_string contact Field.state.offset
  let address_1 ← c_string contact Field.address_1.offset
  let address_2 ← c_string contact Field.address_2.offset
  let zip ← c_string contact Field.zip.offset
  let home_phone ← c_string contact Field.home_phone.offset
  let work_phone ← c_string contact Field.work_phone.offset
  pure [first_name, last_name, country, state, address_1, address_2, zip,
    home_phone, work_phone]

/-- The globals the storage functions act on: the vector `gContacts` and the
contents of the file `./contacts.db` (`none` when there is no such file). -/
structure World where
  gContacts : List Contact
  disk : Option (List Byte)
deriving DecidableEq

/-- The return value of `dump_contact_list` (lines 118-135): `false` exactly
when `gContacts` is empty. -/
def dump_contact_list (w : World) : Bool :=
  if w.gContacts.isEmpty then false else true

/-- The function `prompt_choice` (lines 66-78). `choice` is the value the
variable holds when the loop condition is evaluated; on entry that is whatever
the uninitialised local holds. The list holds the values that the successive
`std::cin >> choice` store. With no input left the extraction fails and stores
zero, for ever. -/
def prompt_choice (min max : Nat) : Nat → List Nat → Except Fault Nat
  | choice, [] =>
    if choice < min || choice > max then
      if 0 < min || 0 > max then .error .diverges else .ok 0
    else .ok choice
  | choice, c :: rest =>
    if choice < min || choice > max then prompt_choice min max c rest
    else .ok choice

/-- The `while (1)` loop of `read_all_contacts` (lines 149-176) on the bytes
not yet read: a read of `sizeof contact` bytes sets `eof` exactly when fewer
are left, and then the loop ends without a `push_back`. The first argument
bounds the number of iterations. -/
def read_loop : Nat → List Byte → List Contact → Except Fault (List Contact)
  | 0, _, _ => .error .diverges
  | fuel + 1, stream, gContacts =>
    if h : CONTACT_SZ ≤ stream.length then
      read_loop fuel (stream.drop CONTACT_SZ)
        (gContacts ++ [⟨stream.take CONTACT_SZ, by simp [List.length_take]; exact h⟩])
    else
      .ok gContacts

/-- The function `read_all_contacts` (lines 138-180). `readable` says whether
an existing file can be opened for reading; `cleared` is `gContacts` after
the `clear ()` of line 141. -/
def read_all_contacts (w : World) (readable : Bool) : Except Fault (Bool × World) :=
  let cleared : List Contact := []
  match w.disk, readable with
  | some stream, true => do
    let gContacts ← read_loop (stream.length + 1) stream cleared
    pure (true, { w with gContacts := gContacts })
  | _, _ => .ok (false, { w with gContacts := cleared })

/-- The `for` loop of `write_all_contacts` (lines 193-200): the bytes written,
after `out`, for the contacts still to come. -/
def write_loop (out : List Byte) : List Contact → List Byte
  | [] => out
  | c :: rest => write_loop (out ++ c.bytes) rest

/-- The function `write_all_contacts` (lines 182-203). `writable` says whether
the file can be opened for writing; opening truncates it. The function returns
`false` when the open fails and has no `return` otherwise (`none`). -/
def write_all_contacts (w : World) (writable : Bool) : Option Bool × World :=
  if !writable then
    (some false, w)
  else
    (none, { w with disk := some (write_loop [] w.gContacts) })

/-- The function `add` (lines 274-302). -/
def add (w : World) (input : List Line) (writable : Bool) : Except Fault (Bool × World) :=
  if w.gContacts.length ≥ MAX_CONTACTS then
    .ok (false, w)
  else do
    let contact := Contact.zeroed
    let (contact, _) ← add_or_edit contact false input
    let w : World := { w with gContacts := w.gContacts ++ [contact] }
    let (_, w) := write_all_contacts w writable
    pure (true, w)

/-- The function `edit` (lines 304-320). `choice0` and `choices` are the
arguments of `prompt_choice`; `input` is what the field prompts read. -/
def edit (w : World) (choice0 : Nat) (choices : List Nat) (input : List Line)
    (writable : Bool) : Except Fault (Bool × World) :=
  if !dump_contact_list w then
    .ok (false, w)
  else do
    let choice ← prompt_choice 1 w.gContacts.length choice0 choices
    match w.gContacts[choice - 1]? with
    | none => .error .out_of_bounds
    | some contact =>
      let (contact, _) ← add_or_edit contact true input
      let w : World := { w with gContacts := w.gContacts.set (choice - 1) contact }
      let (_, w) := write_all_contacts w writable
      pure (true, w)

/-- The menu entries that change the globals (lines 354-366), with what each
one reads from the console and finds on the file system. -/
inductive Op where
  | add (input : List Line) (writable : Bool)
  | edit (choice0 : Nat) (choices : List Nat) (input : List Line) (writable : Bool)
  | load (readable : Bool)

/-- One menu entry run on the globals; the menu discards the return value. -/
def Op.run (w : World) : Op → Except Fault World
  | .add input writable => (Jerrod.add w input writable).map Prod.snd
  | .edit choice0 choices input writable =>
    (Jerrod.edit w choice0 choices input writable).map Prod.snd
  | .load readable => (read_all_contacts w readable).map Prod.snd

/-- The globals `w` can be reached from `w0` by running menu entries that return. -/
inductive Reachable (w0 : World) : World → Prop where
  | start : Reachable w0 w0
  | step (w w1 : World) (op : Op) : Reachable w0 w → op.run w = .ok w1 → Reachable w0 w1

/-- The part of a line that `strcpy` keeps: its bytes before the first zero. -/
def upto_zero (buf : List Byte) : List Byte :=
  buf.takeWhile (fun b => b != 0)

/-- The slot contents `text` followed by zero bytes up to `FIELD_SZ`. -/
def padded (text : List Byte) : List Byte :=
  text ++ List.replicate (FIELD_SZ - text.length) 0

/-- The contact `c` with the slot of member `f` holding `text` and zero bytes after it. -/
def Contact.store (c : Contact) (f : Field) (text : List Byte)
    (h : text.length < FIELD_SZ) : Contact :=
  c.write f.offset (padded text) (by
    simp only [padded, List.length_append, List.length_replicate]
    cases f <;> simp only [Field.offset, FIELD_SZ, CONTACT_SZ] at h ⊢ <;> omega)

/-- The texts of the example record: first name `Jason`, last name `Jerrod`,
every other text empty. -/
def jason_jerrod : Field → List Byte
  | .first_name => [74, 97, 115, 111, 110]
  | .last_name => [74, 101, 114, 114, 111, 100]
  | _ => []

/-- The nine members that `add_or_edit` prompts for, in order. -/
def named_fields : List Field :=
  [.first_name, .last_name, .country, .state, .address_1, .address_2, .zip,
    .home_phone, .work_phone]

/-- A line that `std::getline` reads with the stream left good. -/
def Line.text (buf : List Byte) : Line := ⟨buf, true⟩

/-! ## Lists: overwriting a segment -/

theorem getElem?_splice {α : Type} (b d : List α) (i k : Nat) (h : i + d.length ≤ b.length) :
    (b.take i ++ d ++ b.drop (i + d.length))[k]? =
      if k < i then b[k]? else if k < i + d.length then d[k - i]? else b[k]? := by
  have h1 : (b.take i).length = i := by simp; omega
  by_cases hk : k < i
  · rw [if_pos hk, List.append_assoc, List.getElem?_append_left (by omega),
      List.getElem?_take_of_lt hk]
  · rw [if_neg hk, List.append_assoc, List.getElem?_append_right (by omega), h1]
    by_cases hk2 : k < i + d.length
    · rw [if_pos hk2, List.getElem?_append_left (by omega)]
    · rw [if_neg hk2, List.getElem?_append_right (by omega), List.getElem?_drop]
      congr 1; omega

theorem drop_splice_same {α : Type} (b d : List α) (i : Nat) (h : i + d.length ≤ b.length) :
    (b.take i ++ d ++ b.drop (i + d.length)).drop i = d ++ b.drop (i + d.length) := by
  have h1 : (b.take i).length = i := by simp; omega
  rw [List.append_assoc, List.drop_left' h1]

theorem drop_take_splice_other {α : Type} (b d : List α) (i j n : Nat)
    (h : i + d.length ≤ b.length) (hd : j + n ≤ i ∨ i + d.length ≤ j) :
    ((b.take i ++ d ++ b.drop (i + d.length)).drop j).take n = (b.drop j).take n := by
  apply List.ext_getElem?
  intro k
  simp only [List.getElem?_take, List.getElem?_drop]
  by_cases hk : k < n
  · simp only [hk, if_true]
    rw [getElem?_splice b d i (j + k) h]
    rcases hd with hd | hd
    · rw [if_pos (by omega)]
    · rw [if_neg (by omega), if_neg (by omega)]
  · simp only [hk, if_false]

/-! ## Contacts and their slots -/

theorem Contact.ext_bytes {c d : Contact} (h : c.bytes = d.bytes) : c = d := by
  cases c; cases d; cases h; rfl

theorem Contact.bytes_write (c : Contact) (dst : Nat) (data : List Byte)
    (h : dst + data.length ≤ CONTACT_SZ) :
    (c.write dst data h).bytes = c.bytes.take dst ++ data ++ c.bytes.drop (dst + data.length) :=
  rfl

theorem Field.offset_add_le (f : Field) : f.offset + FIELD_SZ ≤ CONTACT_SZ := by
  cases f <;> simp [Field.offset, FIELD_SZ, CONTACT_SZ]

theorem Field.offset_disjoint (f g : Field) (h : f ≠ g) :
    f.offset + FIELD_SZ ≤ g.offset ∨ g.offset + FIELD_SZ ≤ f.offset := by
  cases f <;> cases g <;> simp_all [Field.offset, FIELD_SZ]

theorem length_padded (t : List Byte) (h : t.length ≤ FIELD_SZ) :
    (padded t).length = FIELD_SZ := by
  simp [padded]; omega

theorem Contact.length_slot (c : Contact) (f : Field) : (c.slot f).length = FIELD_SZ := by
  have h1 := c.size_eq
  have h2 := f.offset_add_le
  simp [Contact.slot, List.length_take, List.length_drop]
  omega

theorem Contact.slot_write_same (c : Contact) (f : Field) (data : List Byte)
    (h : f.offset + data.length ≤ CONTACT_SZ) (hd : data.length = FIELD_SZ) :
    (c.write f.offset data h).slot f = data := by
  have hb : f.offset + data.length ≤ c.bytes.length := by rw [c.size_eq]; exact h
  rw [Contact.slot, Contact.bytes_write, drop_splice_same _ _ _ hb, ← hd, List.take_left' rfl]

theorem Contact.slot_write_other (c : Contact) (f g : Field) (data : List Byte)
    (h : f.offset + data.length ≤ CONTACT_SZ) (hd : data.length = FIELD_SZ) (hfg : g ≠ f) :
    (c.write f.offset data h).slot g = c.slot g := by
  have hb : f.offset + data.length ≤ c.bytes.length := by rw [c.size_eq]; exact h
  rw [Contact.slot, Contact.bytes_write, drop_take_splice_other _ _ _ _ _ hb, Contact.slot]
  rw [hd]
  exact Field.offset_disjoint g f hfg

theorem Contact.slot_zeroed (f : Field) : Contact.zeroed.slot f = List.replicate FIELD_SZ 0 := by
  have h := f.offset_add_le
  rw [Contact.slot, Contact.zeroed, List.drop_replicate, List.take_replicate]
  congr 1
  omega

/-! ## The stores of `prompt_field` -/

theorem bind_ok {ε α β : Type} (a : α) (f : α → Except ε β) : (Except.ok a >>= f) = f a := rfl

theorem bind_error {ε α β : Type} (e : ε) (f : α → Except ε β) :
    (Except.error e >>= f) = Except.error e := rfl

theorem takeWhile_append_stop {α : Type} (p : α → Bool) (l : List α) (a : α) (r : List α)
    (ha : p a = false) : (l ++ a :: r).takeWhile p = l.takeWhile p := by
  induction l with
  | nil => simp [List.takeWhile, ha]
  | cons x xs ih =>
    simp only [List.cons_append, List.takeWhile_cons]
    split
    · rw [ih]
    · rfl

theorem strcpy_bytes_c_str (buf : List Byte) :
    strcpy_bytes (c_str buf) = upto_zero buf ++ [0] := by
  rw [strcpy_bytes, c_str, upto_zero, takeWhile_append_stop _ _ _ _ (by decide)]

theorem upto_zero_of_no_zero (t : List Byte) (h : ∀ b ∈ t, b ≠ 0) : upto_zero t = t := by
  rw [upto_zero, List.takeWhile_eq_self_iff]
  intro b hb
  simpa using h b hb

theorem memset_field (c : Contact) (f : Field) :
    memset c f.offset 0 FIELD_SZ =
      .ok (c.write f.offset (List.replicate FIELD_SZ 0)
        (by rw [List.length_replicate]; exact f.offset_add_le)) := by
  have h : f.offset + (List.replicate FIELD_SZ (0 : Byte)).length ≤ CONTACT_SZ := by
    rw [List.length_replicate]; exact f.offset_add_le
  rw [memset, dif_pos h]

theorem write_zeros_write (c : Contact) (off : Nat) (s : List Byte)
    (h1 : off + (List.replicate FIELD_SZ (0 : Byte)).length ≤ CONTACT_SZ)
    (h2 : off + (s ++ [0]).length ≤ CONTACT_SZ)
    (h3 : off + (padded s).length ≤ CONTACT_SZ)
    (hs : s.length < FIELD_SZ) :
    (c.write off (List.replicate FIELD_SZ 0) h1).write off (s ++ [0]) h2 =
      c.write off (padded s) h3 := by
  apply Contact.ext_bytes
  apply List.ext_getElem?
  intro k
  have hc := c.size_eq
  have hc1 := (c.write off (List.replicate FIELD_SZ 0) h1).size_eq
  have hp : (padded s).length = FIELD_SZ := length_padded s (by omega)
  rw [Contact.bytes_write, getElem?_splice _ _ _ _ (by rw [hc1]; exact h2),
    Contact.bytes_write, getElem?_splice _ _ _ _ (by rw [hc]; exact h1),
    Contact.bytes_write, getElem?_splice _ _ _ _ (by rw [hc]; exact h3)]
  simp only [List.length_replicate, List.length_append, List.length_singleton, hp] at h1 h2 h3 ⊢
  by_cases hk1 : k < off
  · simp only [hk1, if_true]
  · simp only [hk1, if_false]
    by_cases hk2 : k < off + (s.length + 1)
    · have hk3 : k < off + FIELD_SZ := by omega
      simp only [hk2, hk3, if_true, padded]
      by_cases hk4 : k - off < s.length
      · rw [List.getElem?_append_left hk4, List.getElem?_append_left hk4]
      · rw [List.getElem?_append_right (by omega), List.getElem?_append_right (by omega)]
        have : k - off - s.length = 0 := by omega
        rw [this, List.getElem?_replicate, if_pos (by omega)]
        rfl
    · simp only [hk2, if_false]
      by_cases hk3 : k < off + FIELD_SZ
      · simp only [hk3, if_true, padded]
        rw [List.getElem?_append_right (by omega), List.getElem?_replicate,
          List.getElem?_replicate, if_pos (by omega), if_pos (by omega)]
      · simp only [hk3, if_false]

theorem strcpy_c_str (c : Contact) (off : Nat) (buf : List Byte)
    (h : off + (upto_zero buf ++ [0]).length ≤ CONTACT_SZ) :
    strcpy c off (c_str buf) = .ok (c.write off (upto_zero buf ++ [0]) h) := by
  have e := strcpy_bytes_c_str buf
  rw [strcpy]
  split
  · congr 1
    apply Contact.ext_bytes
    rw [Contact.bytes_write, Contact.bytes_write, e]
  · rename_i hn
    rw [e] at hn
    exact absurd h hn

theorem strcpy_c_str_out_of_bounds (c : Contact) (off : Nat) (buf : List Byte)
    (h : CONTACT_SZ < off + (upto_zero buf ++ [0]).length) :
    strcpy c off (c_str buf) = .error .out_of_bounds := by
  rw [strcpy, dif_neg]
  rw [strcpy_bytes_c_str]
  omega

/-- The two library calls of `prompt_field` on a line whose C string fits the slot. -/
theorem memset_strcpy_field (c : Contact) (f : Field) (buf : List Byte)
    (h : (upto_zero buf).length < FIELD_SZ) :
    (memset c f.offset 0 FIELD_SZ >>= fun c1 => strcpy c1 f.offset (c_str buf)) =
      .ok (c.store f (upto_zero buf) h) := by
  have hf := f.offset_add_le
  have h2 : f.offset + (upto_zero buf ++ [0]).length ≤ CONTACT_SZ := by
    simp only [List.length_append, List.length_singleton]; omega
  rw [memset_field, bind_ok, strcpy_c_str _ _ _ h2, Contact.store, write_zeros_write _ _ _ _ _ _ h]

theorem prompt_field_store (c : Contact) (f : Field) (do_edit : Bool) (buf : List Byte)
    (rest : List Line) (hs : do_edit = false ∨ buf ≠ [])
    (h : (upto_zero buf).length < FIELD_SZ) :
    prompt_field c f.offset do_edit (Line.text buf :: rest) =
      .ok (c.store f (upto_zero buf) h, rest) := by
  have hc : (do_edit && buf.isEmpty) = false := by
    rcases hs with hs | hs
    · simp [hs]
    · cases buf with
      | nil => exact absurd rfl hs
      | cons => simp
  have hm := memset_strcpy_field c f buf h
  simp only [prompt_field, prompt_field_loop, Line.text, hc, Bool.false_eq_true, if_false]
  rw [← bind_assoc, hm, bind_ok]
  rfl

theorem prompt_field_add_eof (c : Contact) (f : Field) :
    prompt_field c f.offset false [] =
      .ok (c.store f (upto_zero []) (by simp [upto_zero, FIELD_SZ]), []) := by
  have hm := memset_strcpy_field c f [] (by simp [upto_zero, FIELD_SZ])
  simp only [prompt_field, prompt_field_loop, Bool.false_eq_true, if_false]
  rw [← bind_assoc, hm, bind_ok]
  rfl

theorem Contact.slot_store (c : Contact) (f g : Field) (t : List Byte) (h : t.length < FIELD_SZ) :
    (c.store f t h).slot g = if g = f then padded t else c.slot g := by
  have hp : (padded t).length = FIELD_SZ := length_padded t (by omega)
  by_cases hg : g = f
  · subst hg
    rw [if_pos rfl, Contact.store, Contact.slot_write_same _ _ _ _ hp]
  · rw [if_neg hg, Contact.store, Contact.slot_write_other _ _ _ _ _ hp hg]

/-- The nine prompts of `add_or_edit` when adding: each named slot receives the
C string of its line, the `id` slot is not touched. -/
theorem add_or_edit_add (c : Contact) (texts : Field → List Byte) (rest : List Line)
    (h : ∀ f, (upto_zero (texts f)).length < FIELD_SZ) :
    ∃ c9, add_or_edit c false (named_fields.map (fun f => Line.text (texts f)) ++ rest) =
        .ok (c9, rest) ∧
      c9.slot .id = c.slot .id ∧
      ∀ f, f ≠ .id → c9.slot f = padded (upto_zero (texts f)) := by
  refine ⟨named_fields.foldl (fun c f => c.store f (upto_zero (texts f)) (h f)) c, ?_, ?_, ?_⟩
  · simp only [add_or_edit, named_fields, List.map, List.cons_append, List.nil_append,
      prompt_field_store _ _ false _ _ (Or.inl rfl) (h _), bind_ok, List.foldl]
    rfl
  · simp [named_fields, List.foldl, Contact.slot_store]
  · intro f hf
    cases f <;> simp [named_fields, List.foldl, Contact.slot_store] at hf ⊢

theorem Contact.drop_offset (c : Contact) (f : Field) :
    c.bytes.drop f.offset = c.slot f ++ c.bytes.drop (f.offset + FIELD_SZ) := by
  rw [Contact.slot, ← List.drop_drop, List.take_append_drop]

theorem padded_eq_cons (t : List Byte) (h : t.length < FIELD_SZ) :
    padded t = t ++ 0 :: List.replicate (FIELD_SZ - t.length - 1) 0 := by
  have e : FIELD_SZ - t.length = (FIELD_SZ - t.length - 1) + 1 := by omega
  rw [padded, e, List.replicate_succ]
  simp

theorem c_string_of_slot (c : Contact) (f : Field) (t : List Byte)
    (hs : c.slot f = padded t) (hl : t.length < FIELD_SZ) (hz : ∀ b ∈ t, b ≠ 0) :
    c_string c f.offset = .ok t := by
  have e : c.bytes.drop f.offset =
      t ++ 0 :: (List.replicate (FIELD_SZ - t.length - 1) 0 ++
        c.bytes.drop (f.offset + FIELD_SZ)) := by
    rw [Contact.drop_offset, hs, padded_eq_cons t hl]
    simp
  have hu := upto_zero_of_no_zero t hz
  rw [upto_zero] at hu
  rw [c_string, e, takeWhile_append_stop _ _ _ _ (by decide), hu, if_neg]
  simp

/-! ## The file: `write_loop` and `read_loop` -/

theorem write_loop_eq (out : List Byte) (cs : List Contact) :
    write_loop out cs = out ++ (cs.map Contact.bytes).flatten := by
  induction cs generalizing out with
  | nil => simp [write_loop]
  | cons c cs ih => rw [write_loop, ih]; simp

theorem length_flatten_bytes (cs : List Contact) :
    (cs.map Contact.bytes).flatten.length = CONTACT_SZ * cs.length := by
  induction cs with
  | nil => simp
  | cons c cs ih =>
    rw [List.map_cons, List.flatten_cons, List.length_append, ih, c.size_eq, List.length_cons]
    ring

/-- Reading back what `write_loop` wrote, with fewer than `CONTACT_SZ` further
bytes after it, appends exactly the contacts written. -/
theorem read_loop_flatten (cs : List Contact) (tail : List Byte) (fuel : Nat)
    (acc : List Contact) (ht : tail.length < CONTACT_SZ) (hf : cs.length < fuel) :
    read_loop fuel ((cs.map Contact.bytes).flatten ++ tail) acc = .ok (acc ++ cs) := by
  induction cs generalizing fuel acc with
  | nil =>
    cases fuel with
    | zero => simp at hf
    | succ n =>
      rw [read_loop, dif_neg]
      · simp
      · simpa using ht
  | cons c cs ih =>
    cases fuel with
    | zero => simp at hf
    | succ n =>
      have hc := c.size_eq
      have e : (List.map Contact.bytes (c :: cs)).flatten ++ tail =
          c.bytes ++ ((cs.map Contact.bytes).flatten ++ tail) := by simp
      have hlen : CONTACT_SZ ≤ ((List.map Contact.bytes (c :: cs)).flatten ++ tail).length := by
        rw [e, List.length_append, hc]; omega
      rw [read_loop, dif_pos hlen]
      have hd : ((List.map Contact.bytes (c :: cs)).flatten ++ tail).drop CONTACT_SZ =
          (cs.map Contact.bytes).flatten ++ tail := by
        rw [e, List.drop_left' hc]
      have hk : (⟨((List.map Contact.bytes (c :: cs)).flatten ++ tail).take CONTACT_SZ,
          by rw [List.length_take]; exact Nat.min_eq_left hlen⟩ : Contact) = c := by
        apply Contact.ext_bytes
        show ((List.map Contact.bytes (c :: cs)).flatten ++ tail).take CONTACT_SZ = c.bytes
        rw [e, List.take_left' hc]
      rw [hk, hd, ih n (acc ++ [c]) (by simpa using hf)]
      simp

/-- The loop of `read_all_contacts` returns whenever its bound exceeds the number
of whole blocks, and then appends one contact for each whole block, made of
the bytes of the file in order; the bytes after the last whole block are in
no contact. -/
theorem read_loop_blocks (fuel : Nat) (stream : List Byte) (acc : List Contact)
    (hf : stream.length / CONTACT_SZ < fuel) :
    ∃ cs, read_loop fuel stream acc = .ok (acc ++ cs) ∧
      cs.length = stream.length / CONTACT_SZ ∧
      (cs.map Contact.bytes).flatten =
        stream.take (CONTACT_SZ * (stream.length / CONTACT_SZ)) := by
  induction fuel generalizing stream acc with
  | zero => simp at hf
  | succ n ih =>
    by_cases hlen : CONTACT_SZ ≤ stream.length
    · have h2560 : CONTACT_SZ = 2560 := by decide
      have hdl : (stream.drop CONTACT_SZ).length = stream.length - CONTACT_SZ := by simp
      have hq : (stream.length - CONTACT_SZ) / CONTACT_SZ + 1 = stream.length / CONTACT_SZ := by
        rw [h2560] at hlen ⊢; omega
      have hf1 : (stream.drop CONTACT_SZ).length / CONTACT_SZ < n := by
        rw [hdl]; omega
      obtain ⟨cs, h1, h2, h3⟩ := ih (stream.drop CONTACT_SZ)
        (acc ++ [⟨stream.take CONTACT_SZ, by rw [List.length_take]; exact Nat.min_eq_left hlen⟩])
        hf1
      refine ⟨⟨stream.take CONTACT_SZ, by rw [List.length_take]; exact Nat.min_eq_left hlen⟩
        :: cs, ?_, ?_, ?_⟩
      · rw [read_loop, dif_pos hlen, h1]
        simp
      · rw [List.length_cons, h2, hdl, hq]
      · rw [List.map_cons, List.flatten_cons, h3, hdl, ← hq, Nat.mul_add, Nat.mul_one,
          Nat.add_comm, List.take_add]
    · rw [read_loop, dif_neg hlen]
      have hz : stream.length / CONTACT_SZ = 0 := Nat.div_eq_of_lt (by omega)
      exact ⟨[], by simp, by simp [hz], by simp [hz]⟩

/-! ## The storage functions -/

theorem read_all_contacts_closed (w : World) (readable : Bool)
    (h : w.disk = none ∨ readable = false) :
    read_all_contacts w readable = .ok (false, ⟨[], w.disk⟩) := by
  obtain ⟨gs, d⟩ := w
  rcases h with h | h
  · simp only at h
    subst h
    rfl
  · subst h
    cases d <;> rfl

/-- A load of a file that opens returns `true` with one contact for each whole
block of the file. -/
theorem read_all_contacts_open (w : World) (stream : List Byte) (hd : w.disk = some stream) :
    ∃ cs, read_all_contacts w true = .ok (true, ⟨cs, some stream⟩) ∧
      cs.length = stream.length / CONTACT_SZ ∧
      (cs.map Contact.bytes).flatten =
        stream.take (CONTACT_SZ * (stream.length / CONTACT_SZ)) := by
  obtain ⟨cs, h1, h2, h3⟩ := read_loop_blocks (stream.length + 1) stream []
    (Nat.lt_succ_of_le (Nat.div_le_self _ _))
  refine ⟨cs, ?_, h2, h3⟩
  obtain ⟨gs, d⟩ := w
  simp only at hd
  subst hd
  simp only [read_all_contacts, h1, bind_ok, List.nil_append]
  rfl

theorem write_all_contacts_snd (w : World) (writable : Bool) :
    (write_all_contacts w writable).2 =
      ⟨w.gContacts,
        if writable then some ((w.gContacts.map Contact.bytes).flatten) else w.disk⟩ := by
  cases writable <;> simp [write_all_contacts, write_loop_eq]

/-- The ways in which `add` returns. -/
theorem add_cases (w : World) (input : List Line) (writable : Bool) :
    (MAX_CONTACTS ≤ w.gContacts.length ∧ add w input writable = .ok (false, w)) ∨
    (w.gContacts.length < MAX_CONTACTS ∧
      ((∃ e, add_or_edit Contact.zeroed false input = .error e ∧
          add w input writable = .error e) ∨
       (∃ c rest, add_or_edit Contact.zeroed false input = .ok (c, rest) ∧
          add w input writable =
            .ok (true, (write_all_contacts ⟨w.gContacts ++ [c], w.disk⟩ writable).2)))) := by
  by_cases h : MAX_CONTACTS ≤ w.gContacts.length
  · left
    exact ⟨h, by simp [add, h]⟩
  · right
    refine ⟨by omega, ?_⟩
    cases ha : add_or_edit Contact.zeroed false input with
    | error e =>
      left
      exact ⟨e, rfl, by simp only [add, ge_iff_le, h, if_false, ha, bind_error]⟩
    | ok r =>
      right
      obtain ⟨c, rest⟩ := r
      exact ⟨c, rest, rfl, by simp only [add, ge_iff_le, h, if_false, ha, bind_ok]; rfl⟩

/-! ## The index prompt and `edit` -/

/-- The value `prompt_choice` returns, when `1 ≤ min`: the first value in range
among the initial one and those read; it never returns when there is none. -/
theorem prompt_choice_eq (min max : Nat) (hmin : 0 < min) (choice : Nat) (choices : List Nat) :
    prompt_choice min max choice choices =
      match (choice :: choices).find? (fun c => decide (min ≤ c) && decide (c ≤ max)) with
      | some i => .ok i
      | none => .error .diverges := by
  induction choices generalizing choice with
  | nil =>
    by_cases h : choice < min ∨ choice > max
    · have hn : (decide (min ≤ choice) && decide (choice ≤ max)) = false := by
        simp only [Bool.and_eq_false_iff, decide_eq_false_iff_not]; omega
      simp [prompt_choice, h, hmin, List.find?, hn]
    · have hn : (decide (min ≤ choice) && decide (choice ≤ max)) = true := by
        simp only [Bool.and_eq_true, decide_eq_true_eq]; omega
      simp [prompt_choice, h, List.find?, hn]
  | cons c rest ih =>
    by_cases h : choice < min ∨ choice > max
    · have hn : (decide (min ≤ choice) && decide (choice ≤ max)) = false := by
        simp only [Bool.and_eq_false_iff, decide_eq_false_iff_not]; omega
      rw [prompt_choice]
      simp only [Bool.or_eq_true, decide_eq_true_eq, h, if_true]
      rw [ih c, List.find?_cons (a := choice), hn]
    · have hn : (decide (min ≤ choice) && decide (choice ≤ max)) = true := by
        simp only [Bool.and_eq_true, decide_eq_true_eq]; omega
      rw [prompt_choice]
      simp only [Bool.or_eq_true, decide_eq_true_eq, h, if_false]
      rw [List.find?_cons (a := choice), hn]

theorem prompt_choice_range (min max : Nat) (hmin : 0 < min) (choice : Nat) (choices : List Nat)
    (i : Nat) (h : prompt_choice min max choice choices = .ok i) :
    min ≤ i ∧ i ≤ max ∧ i ∈ choice :: choices := by
  rw [prompt_choice_eq min max hmin] at h
  cases hf : (choice :: choices).find? (fun c => decide (min ≤ c) && decide (c ≤ max)) with
  | none => rw [hf] at h; simp at h
  | some j =>
    rw [hf] at h
    simp only [Except.ok.injEq] at h
    subst h
    have h1 := List.find?_some hf
    have h2 := List.mem_of_find?_eq_some hf
    simp only [Bool.and_eq_true, decide_eq_true_eq] at h1
    exact ⟨h1.1, h1.2, h2⟩

/-- The ways in which `edit` returns. -/
theorem edit_cases (w : World) (choice0 : Nat) (choices : List Nat) (input : List Line)
    (writable : Bool) :
    (w.gContacts = [] ∧ edit w choice0 choices input writable = .ok (false, w)) ∨
    (w.gContacts ≠ [] ∧
      ((prompt_choice 1 w.gContacts.length choice0 choices = .error .diverges ∧
          edit w choice0 choices input writable = .error .diverges) ∨
       (∃ i c, prompt_choice 1 w.gContacts.length choice0 choices = .ok i ∧
          1 ≤ i ∧ i ≤ w.gContacts.length ∧ w.gContacts[i - 1]? = some c ∧
          ((∃ e, add_or_edit c true input = .error e ∧
              edit w choice0 choices input writable = .error e) ∨
           (∃ c1 rest, add_or_edit c true input = .ok (c1, rest) ∧
              edit w choice0 choices input writable =
                .ok (true,
                  (write_all_contacts ⟨w.gContacts.set (i - 1) c1, w.disk⟩ writable).2)))))) := by
  by_cases h : w.gContacts = []
  · left
    exact ⟨h, by simp [edit, dump_contact_list, h]⟩
  · right
    refine ⟨h, ?_⟩
    have hd : dump_contact_list w = true := by
      cases hg : w.gContacts with
      | nil => exact absurd hg h
      | cons => simp [dump_contact_list, hg]
    cases hp : prompt_choice 1 w.gContacts.length choice0 choices with
    | error e =>
      left
      have he : e = .diverges := by
        rw [prompt_choice_eq 1 _ (by decide)] at hp
        split at hp <;> simp at hp
        exact hp.symm
      subst he
      exact ⟨rfl, by simp only [edit, hd, hp, bind_error]; rfl⟩
    | ok i =>
      right
      obtain ⟨h1, h2, -⟩ := prompt_choice_range 1 _ (by decide) _ _ _ hp
      have hlt : i - 1 < w.gContacts.length := by omega
      have hg : w.gContacts[i - 1]? = some (w.gContacts[i - 1]) := List.getElem?_eq_getElem hlt
      refine ⟨i, w.gContacts[i - 1], rfl, h1, h2, hg, ?_⟩
      cases ha : add_or_edit (w.gContacts[i - 1]) true input with
      | error e =>
        left
        refine ⟨e, rfl, ?_⟩
        simp only [edit, hd, hp, bind_ok, hg, ha, bind_error]
        rfl
      | ok r =>
        right
        obtain ⟨c1, rest⟩ := r
        refine ⟨c1, rest, rfl, ?_⟩
        simp only [edit, hd, hp, bind_ok, hg, ha]
        rfl

/-! ## Contacts are determined by their slots -/

theorem Contact.bytes_eq_slots (c : Contact) :
    c.bytes = c.slot .id ++ (c.slot .first_name ++ (c.slot .last_name ++ (c.slot .country ++
      (c.slot .state ++ (c.slot .address_1 ++ (c.slot .address_2 ++ (c.slot .zip ++
      (c.slot .home_phone ++ c.slot .work_phone)))))))) := by
  have h0 : c.bytes = c.bytes.drop Field.id.offset := rfl
  have hend : c.bytes.drop (Field.work_phone.offset + FIELD_SZ) = [] :=
    List.drop_eq_nil_of_le (by rw [c.size_eq]; exact Nat.le_refl _)
  have h1 : Field.id.offset + FIELD_SZ = Field.first_name.offset := by decide
  have h2 : Field.first_name.offset + FIELD_SZ = Field.last_name.offset := by decide
  have h3 : Field.last_name.offset + FIELD_SZ = Field.country.offset := by decide
  have h4 : Field.country.offset + FIELD_SZ = Field.state.offset := by decide
  have h5 : Field.state.offset + FIELD_SZ = Field.address_1.offset := by decide
  have h6 : Field.address_1.offset + FIELD_SZ = Field.address_2.offset := by decide
  have h7 : Field.address_2.offset + FIELD_SZ = Field.zip.offset := by decide
  have h8 : Field.zip.offset + FIELD_SZ = Field.home_phone.offset := by decide
  have h9 : Field.home_phone.offset + FIELD_SZ = Field.work_phone.offset := by decide
  conv_lhs => rw [h0, Contact.drop_offset, h1, Contact.drop_offset, h2, Contact.drop_offset, h3,
    Contact.drop_offset, h4, Contact.drop_offset, h5, Contact.drop_offset, h6,
    Contact.drop_offset, h7, Contact.drop_offset, h8, Contact.drop_offset, h9,
    Contact.drop_offset, hend, List.append_nil]

theorem Contact.ext_slots {c d : Contact} (h : ∀ f, c.slot f = d.slot f) : c = d := by
  apply Contact.ext_bytes
  rw [c.bytes_eq_slots, d.bytes_eq_slots]
  simp only [h]

theorem padded_nil : padded [] = List.replicate FIELD_SZ 0 := rfl

/-- Nine empty lines in add mode give the all-zero contact. -/
theorem add_or_edit_blank :
    add_or_edit Contact.zeroed false (named_fields.map (fun _ => Line.text [])) =
      .ok (Contact.zeroed, []) := by
  obtain ⟨c9, h1, h2, h3⟩ := add_or_edit_add Contact.zeroed (fun _ => []) []
    (fun _ => by simp [upto_zero, FIELD_SZ])
  rw [List.append_nil] at h1
  rw [h1]
  have : c9 = Contact.zeroed := by
    apply Contact.ext_slots
    intro f
    by_cases hf : f = .id
    · rw [hf, h2]
    · rw [h3 f hf, Contact.slot_zeroed]
      rfl
  rw [this]

theorem add_blank (w : World) (writable : Bool) (h : w.gContacts.length < MAX_CONTACTS) :
    add w (named_fields.map (fun _ => Line.text [])) writable =
      .ok (true, (write_all_contacts ⟨w.gContacts ++ [Contact.zeroed], w.disk⟩ writable).2) := by
  rcases add_cases w (named_fields.map (fun _ => Line.text [])) writable with h1 | ⟨-, h1 | h1⟩
  · omega
  · obtain ⟨e, he, -⟩ := h1
    rw [add_or_edit_blank] at he
    simp at he
  · obtain ⟨c, rest, he, ha⟩ := h1
    rw [add_or_edit_blank] at he
    simp only [Except.ok.injEq, Prod.mk.injEq] at he
    rw [ha, ← he.1]

theorem add_grows (w w1 : World) (input : List Line) (writable : Bool)
    (h : add w input writable = .ok (true, w1)) :
    w1.gContacts.length = w.gContacts.length + 1 := by
  rcases add_cases w input writable with h1 | ⟨-, h1 | h1⟩
  · rw [h1.2] at h; simp at h
  · obtain ⟨e, -, he⟩ := h1
    rw [he] at h; simp at h
  · obtain ⟨c, rest, -, ha⟩ := h1
    rw [ha] at h
    simp only [Except.ok.injEq, Prod.mk.injEq, true_and] at h
    rw [← h, write_all_contacts_snd]
    simp

/-- A load of the file that holds the blocks of `gs`, and nothing else, gives `gs`. -/
theorem read_all_contacts_flatten (gs m : List Contact) :
    read_all_contacts ⟨m, some ((gs.map Contact.bytes).flatten)⟩ true =
      .ok (true, ⟨gs, some ((gs.map Contact.bytes).flatten)⟩) := by
  have hl := length_flatten_bytes gs
  have hf : gs.length < (gs.map Contact.bytes).flatten.length + 1 := by
    rw [hl]
    have : 1 ≤ CONTACT_SZ := by decide
    nlinarith
  have hr := read_loop_flatten gs [] _ [] (by decide) hf
  rw [List.append_nil, List.nil_append] at hr
  simp only [read_all_contacts, hr, bind_ok]
  rfl

/-! ## The capacity invariant -/

/-- Writing keeps the invariant of the menu: at most `MAX_CONTACTS` contacts in
memory, and fewer than `MAX_CONTACTS + 1` whole blocks in the file. -/
theorem write_all_contacts_small (gs : List Contact) (d : Option (List Byte)) (writable : Bool)
    (hg : gs.length ≤ MAX_CONTACTS)
    (hd : ∀ stream, d = some stream → stream.length < (MAX_CONTACTS + 1) * CONTACT_SZ) :
    (write_all_contacts ⟨gs, d⟩ writable).2.gContacts.length ≤ MAX_CONTACTS ∧
    ∀ stream, (write_all_contacts ⟨gs, d⟩ writable).2.disk = some stream →
      stream.length < (MAX_CONTACTS + 1) * CONTACT_SZ := by
  rw [write_all_contacts_snd]
  refine ⟨hg, ?_⟩
  intro stream hs
  cases writable with
  | false => exact hd stream hs
  | true =>
    simp only [if_true, Option.some.injEq] at hs
    rw [← hs, length_flatten_bytes]
    have h1 : 0 < CONTACT_SZ := by decide
    have h2 : CONTACT_SZ * gs.length ≤ CONTACT_SZ * MAX_CONTACTS := Nat.mul_le_mul_left _ hg
    nlinarith

theorem run_small (w w1 : World) (op : Op) (h : op.run w = .ok w1)
    (hg : w.gContacts.length ≤ MAX_CONTACTS)
    (hd : ∀ stream, w.disk = some stream → stream.length < (MAX_CONTACTS + 1) * CONTACT_SZ) :
    w1.gContacts.length ≤ MAX_CONTACTS ∧
    ∀ stream, w1.disk = some stream → stream.length < (MAX_CONTACTS + 1) * CONTACT_SZ := by
  cases op with
  | add input writable =>
    rcases add_cases w input writable with h1 | ⟨hlt, h1 | h1⟩
    · simp only [Op.run, h1.2, Except.map, Except.ok.injEq] at h
      rw [← h]
      exact ⟨hg, hd⟩
    · obtain ⟨e, -, he⟩ := h1
      simp [Op.run, he, Except.map] at h
    · obtain ⟨c, rest, -, ha⟩ := h1
      simp only [Op.run, ha, Except.map, Except.ok.injEq] at h
      rw [← h]
      exact write_all_contacts_small _ _ _ (by simp; omega) hd
  | edit choice0 choices input writable =>
    rcases edit_cases w choice0 choices input writable with h1 | ⟨-, h1 | h1⟩
    · simp only [Op.run, h1.2, Except.map, Except.ok.injEq] at h
      rw [← h]
      exact ⟨hg, hd⟩
    · simp [Op.run, h1.2, Except.map] at h
    · obtain ⟨i, c, -, -, -, -, h2 | h2⟩ := h1
      · obtain ⟨e, -, he⟩ := h2
        simp [Op.run, he, Except.map] at h
      · obtain ⟨c1, rest, -, he⟩ := h2
        simp only [Op.run, he, Except.map, Except.ok.injEq] at h
        rw [← h]
        exact write_all_contacts_small _ _ _ (by simpa using hg) hd
  | load readable =>
    cases hdk : w.disk with
    | none =>
      rw [Op.run, read_all_contacts_closed w readable (Or.inl hdk)] at h
      simp only [Except.map, Except.ok.injEq] at h
      rw [← h]
      exact ⟨by simp, hd⟩
    | some stream =>
      cases readable with
      | false =>
        rw [Op.run, read_all_contacts_closed w false (Or.inr rfl)] at h
        simp only [Except.map, Except.ok.injEq] at h
        rw [← h]
        exact ⟨by simp, hd⟩
      | true =>
        obtain ⟨cs, h1, h2, -⟩ := read_all_contacts_open w stream hdk
        rw [Op.run, h1] at h
        simp only [Except.map, Except.ok.injEq] at h
        rw [← h]
        have hs := hd stream hdk
        have h2560 : CONTACT_SZ = 2560 := by decide
        have h5 : MAX_CONTACTS = 5 := by decide
        refine ⟨?_, ?_⟩
        · show cs.length ≤ MAX_CONTACTS
          rw [h2, h5, h2560]
          rw [h5, h2560] at hs
          omega
        · intro s hs1
          simp only [Option.some.injEq] at hs1
          rw [← hs1]
          exact hs

/-! ## What `edit` does to the chosen contact -/

theorem write_write_cover (c : Contact) (off : Nat) (d1 d2 : List Byte)
    (h1 : off + d1.length ≤ CONTACT_SZ) (h2 : off + d2.length ≤ CONTACT_SZ)
    (hle : d1.length ≤ d2.length) :
    (c.write off d1 h1).write off d2 h2 = c.write off d2 h2 := by
  apply Contact.ext_bytes
  apply List.ext_getElem?
  intro k
  have hc := c.size_eq
  have hc1 := (c.write off d1 h1).size_eq
  rw [Contact.bytes_write, getElem?_splice _ _ _ _ (by rw [hc1]; exact h2),
    Contact.bytes_write, getElem?_splice _ _ _ _ (by rw [hc]; exact h1),
    Contact.bytes_write, getElem?_splice _ _ _ _ (by rw [hc]; exact h2)]
  by_cases hk1 : k < off
  · simp only [hk1, if_true]
  · by_cases hk2 : k < off + d2.length
    · simp only [hk1, hk2, if_false, if_true]
    · have hk3 : ¬ k < off + d1.length := by omega
      simp only [hk1, hk2, hk3, if_false]

/-- A good line whose C string does not fit the slot, but fits the contact: the
whole string and its final zero are written from the start of the slot on. -/
theorem prompt_field_overflow (c : Contact) (f : Field) (do_edit : Bool) (buf : List Byte)
    (rest : List Line) (hs : do_edit = false ∨ buf ≠ [])
    (h : f.offset + (upto_zero buf ++ [0]).length ≤ CONTACT_SZ)
    (hlen : FIELD_SZ ≤ (upto_zero buf ++ [0]).length) :
    prompt_field c f.offset do_edit (Line.text buf :: rest) =
      .ok (c.write f.offset (upto_zero buf ++ [0]) h, rest) := by
  have hc : (do_edit && buf.isEmpty) = false := by
    rcases hs with hs | hs
    · simp [hs]
    · cases buf with
      | nil => exact absurd rfl hs
      | cons => simp
  simp only [prompt_field, prompt_field_loop, Line.text, hc, Bool.false_eq_true, if_false]
  rw [memset_field, bind_ok, strcpy_c_str _ _ _ h, bind_ok,
    write_write_cover _ _ _ _ _ h (by rw [List.length_replicate]; exact hlen)]
  rfl

theorem Contact.slot_write_head (c : Contact) (f : Field) (data : List Byte)
    (h : f.offset + data.length ≤ CONTACT_SZ) (hd : FIELD_SZ ≤ data.length) :
    (c.write f.offset data h).slot f = data.take FIELD_SZ := by
  have hb : f.offset + data.length ≤ c.bytes.length := by rw [c.size_eq]; exact h
  rw [Contact.slot, Contact.bytes_write, drop_splice_same _ _ _ hb,
    List.take_append_of_le_length hd]

theorem Contact.slot_write_next (c : Contact) (f g : Field) (data : List Byte)
    (h : f.offset + data.length ≤ CONTACT_SZ) (hg : g.offset = f.offset + FIELD_SZ)
    (hd : FIELD_SZ ≤ data.length) (hd2 : data.length ≤ FIELD_SZ + FIELD_SZ) :
    (c.write f.offset data h).slot g =
      data.drop FIELD_SZ ++ (c.slot g).drop (data.length - FIELD_SZ) := by
  have hb : f.offset + data.length ≤ c.bytes.length := by rw [c.size_eq]; exact h
  apply List.ext_getElem?
  intro k
  rw [Contact.slot, Contact.bytes_write, List.getElem?_take, List.getElem?_drop,
    getElem?_splice _ _ _ _ hb]
  by_cases hk : k < FIELD_SZ
  · rw [if_pos hk, if_neg (by omega)]
    by_cases hk2 : k < data.length - FIELD_SZ
    · rw [if_pos (by omega), List.getElem?_append_left (by rw [List.length_drop]; exact hk2),
        List.getElem?_drop]
      congr 1
      omega
    · rw [if_neg (by omega), List.getElem?_append_right (by rw [List.length_drop]; omega),
        List.length_drop, List.getElem?_drop, Contact.slot, List.getElem?_take,
        List.getElem?_drop, if_pos (by omega)]
      have e : data.length - FIELD_SZ + (k - (data.length - FIELD_SZ)) = k := by omega
      rw [e]
  · rw [if_neg hk]
    symm
    apply List.getElem?_eq_none
    rw [List.length_append, List.length_drop, List.length_drop, Contact.length_slot]
    omega

theorem map_ok {ε α β : Type} (f : α → β) (a : α) :
    (Except.ok a : Except ε α).map f = .ok (f a) := rfl

/-! ## The claims -/

/-- C1. Codec round trip. Let every text of `texts` have at most 255 bytes and
no zero byte. Then for every member `f` of every contact, the `memset` of the
slot followed by the `strcpy` of the text, as `prompt_field` does them (in add
mode for every text, in edit mode for every non-empty one, the empty line
being the one that skips the store), leaves the slot of `f` holding the text
followed by zero bytes, and reading the slot back as a C string returns
exactly the text. Hence a record written by the nine prompts of `add_or_edit`
is printed back by `dump_contact` as the nine texts. -/
theorem codec_round_trip (c : Contact) (texts : Field → List Byte)
    (h : ∀ f, (texts f).length ≤ 255 ∧ ∀ b ∈ texts f, b ≠ 0) :
    (∀ f : Field, ∃ c1,
      (memset c f.offset 0 FIELD_SZ >>= fun m => strcpy m f.offset (c_str (texts f))) = .ok c1 ∧
      (∀ (do_edit : Bool) (rest : List Line), (do_edit = false ∨ texts f ≠ []) →
        prompt_field c f.offset do_edit (Line.text (texts f) :: rest) = .ok (c1, rest)) ∧
      c1.slot f = texts f ++ List.replicate (FIELD_SZ - (texts f).length) 0 ∧
      c_string c1 f.offset = .ok (texts f)) ∧
    (∃ c9, add_or_edit c false (named_fields.map (fun f => Line.text (texts f))) = .ok (c9, []) ∧
      dump_contact c9 = .ok (named_fields.map texts)) := by
  have hu : ∀ f, upto_zero (texts f) = texts f := fun f => upto_zero_of_no_zero _ (h f).2
  have hl : ∀ f, (texts f).length < FIELD_SZ := fun f => by
    have := (h f).1
    simp only [FIELD_SZ]; omega
  have hlu : ∀ f, (upto_zero (texts f)).length < FIELD_SZ := fun f => by rw [hu]; exact hl f
  constructor
  · intro f
    have hs : (c.store f (upto_zero (texts f)) (hlu f)).slot f = padded (texts f) := by
      rw [Contact.slot_store, if_pos rfl, hu]
    refine ⟨_, memset_strcpy_field c f (texts f) (hlu f),
      fun do_edit rest hm => prompt_field_store c f do_edit (texts f) rest hm (hlu f), hs,
      c_string_of_slot _ _ _ hs (hl f) (h f).2⟩
  · obtain ⟨c9, h1, -, h3⟩ := add_or_edit_add c texts [] hlu
    rw [List.append_nil] at h1
    refine ⟨c9, h1, ?_⟩
    have hc : ∀ f, f ≠ .id → c_string c9 f.offset = .ok (texts f) := fun f hf => by
      apply c_string_of_slot _ _ _ _ (hl f) (h f).2
      rw [h3 f hf, hu]
    simp only [dump_contact, hc .first_name (by decide), hc .last_name (by decide),
      hc .country (by decide), hc .state (by decide), hc .address_1 (by decide),
      hc .address_2 (by decide), hc .zip (by decide), hc .home_phone (by decide),
      hc .work_phone (by decide), bind_ok]
    rfl

/-- Witness of C1: the example record, written into the all-zero contact. -/
theorem codec_round_trip_witness :
    (∀ f, (jason_jerrod f).length ≤ 255 ∧ ∀ b ∈ jason_jerrod f, b ≠ 0) ∧
    ∃ c9, add_or_edit Contact.zeroed false (named_fields.map (fun f => Line.text (jason_jerrod f))) =
        .ok (c9, []) ∧
      dump_contact c9 = .ok (named_fields.map jason_jerrod) :=
  ⟨fun f => by cases f <;> simp [jason_jerrod],
    (codec_round_trip Contact.zeroed jason_jerrod
      (fun f => by cases f <;> simp [jason_jerrod])).2⟩

/-- C2. Persistence round trip. For every in-memory sequence (of any length, so
of 0 to 5 records), `write_all_contacts` with the file opening for writing,
followed by `read_all_contacts` on the file it produced, the file opening for
reading, returns `true` and leaves `gContacts` equal to the original sequence,
element for element and in the same order; this holds whatever `gContacts`
holds when the load starts. -/
theorem save_load_round_trip (w : World) (mem : List Contact) :
    read_all_contacts (write_all_contacts w true).2 true =
      .ok (true, ⟨w.gContacts, (write_all_contacts w true).2.disk⟩) ∧
    read_all_contacts ⟨mem, (write_all_contacts w true).2.disk⟩ true =
      .ok (true, ⟨w.gContacts, (write_all_contacts w true).2.disk⟩) := by
  rw [write_all_contacts_snd]
  exact ⟨read_all_contacts_flatten _ _, read_all_contacts_flatten _ _⟩

/-- C3. Capacity rejection. Whenever `gContacts` holds `MAX_CONTACTS` (5) or
more contacts, `add` returns `false` and leaves the globals as they were: the
same sequence, and the same file state whatever it was (an absent file stays
absent), for every console input. In particular, after five calls of `add`
that return `true`, starting from an empty store, the sequence has length 5
and a sixth `add` returns `false` and leaves it so. -/
theorem add_rejects_at_capacity :
    (∀ (w : World) (input : List Line) (writable : Bool),
      MAX_CONTACTS ≤ w.gContacts.length → add w input writable = .ok (false, w)) ∧
    (∀ (w0 w1 w2 w3 w4 w5 : World) (i1 i2 i3 i4 i5 i6 : List Line)
        (b1 b2 b3 b4 b5 b6 : Bool),
      w0.gContacts = [] →
      add w0 i1 b1 = .ok (true, w1) → add w1 i2 b2 = .ok (true, w2) →
      add w2 i3 b3 = .ok (true, w3) → add w3 i4 b4 = .ok (true, w4) →
      add w4 i5 b5 = .ok (true, w5) →
      w5.gContacts.length = 5 ∧ add w5 i6 b6 = .ok (false, w5)) := by
  have full : ∀ (w : World) (input : List Line) (writable : Bool),
      MAX_CONTACTS ≤ w.gContacts.length → add w input writable = .ok (false, w) := by
    intro w input writable h
    rcases add_cases w input writable with h1 | h1
    · exact h1.2
    · have := h1.1
      omega
  refine ⟨full, ?_⟩
  intro w0 w1 w2 w3 w4 w5 i1 i2 i3 i4 i5 i6 b1 b2 b3 b4 b5 b6 h0 a1 a2 a3 a4 a5
  have l1 := add_grows _ _ _ _ a1
  have l2 := add_grows _ _ _ _ a2
  have l3 := add_grows _ _ _ _ a3
  have l4 := add_grows _ _ _ _ a4
  have l5 := add_grows _ _ _ _ a5
  rw [h0, List.length_nil] at l1
  have hl : w5.gContacts.length = 5 := by omega
  exact ⟨hl, full w5 i6 b6 (by rw [hl]; decide)⟩

/-- Witness of C3: a store of five all-zero contacts rejects an `add`, and five
adds of nine empty lines from the empty store, with no file written, lead to
that store. -/
theorem add_rejects_at_capacity_witness :
    (MAX_CONTACTS ≤ (World.mk (List.replicate 5 Contact.zeroed) none).gContacts.length ∧
      add ⟨List.replicate 5 Contact.zeroed, none⟩ [] true =
        .ok (false, ⟨List.replicate 5 Contact.zeroed, none⟩)) ∧
    ((World.mk (List.replicate 5 Contact.zeroed) none).gContacts.length = 5 ∧
      add ⟨List.replicate 5 Contact.zeroed, none⟩ [] true =
        .ok (false, ⟨List.replicate 5 Contact.zeroed, none⟩)) :=
  ⟨⟨by decide, add_rejects_at_capacity.1 _ _ _ (by decide)⟩,
    add_rejects_at_capacity.2 ⟨[], none⟩ ⟨List.replicate 1 Contact.zeroed, none⟩
      ⟨List.replicate 2 Contact.zeroed, none⟩ ⟨List.replicate 3 Contact.zeroed, none⟩
      ⟨List.replicate 4 Contact.zeroed, none⟩ ⟨List.replicate 5 Contact.zeroed, none⟩
      (named_fields.map (fun _ => Line.text [])) (named_fields.map (fun _ => Line.text []))
      (named_fields.map (fun _ => Line.text [])) (named_fields.map (fun _ => Line.text []))
      (named_fields.map (fun _ => Line.text [])) [] false false false false false true rfl
      (add_blank ⟨[], none⟩ false (by decide))
      (add_blank ⟨List.replicate 1 Contact.zeroed, none⟩ false (by decide))
      (add_blank ⟨List.replicate 2 Contact.zeroed, none⟩ false (by decide))
      (add_blank ⟨List.replicate 3 Contact.zeroed, none⟩ false (by decide))
      (add_blank ⟨List.replicate 4 Contact.zeroed, none⟩ false (by decide))⟩

/-- C5, as the code has it. When the file has `2560 * k + 100` bytes and opens,
`read_all_contacts` returns `true` (it reports no failure); `gContacts` then
holds exactly `k` contacts, which are the first `2560 * k` bytes of the file in
order, so the 100 trailing bytes are decoded into no contact. -/
theorem truncated_file_load (w : World) (stream : List Byte) (k : Nat)
    (hd : w.disk = some stream) (hl : stream.length = 2560 * k + 100) :
    ∃ cs, read_all_contacts w true = .ok (true, ⟨cs, some stream⟩) ∧
      cs.length = k ∧ (cs.map Contact.bytes).flatten = stream.take (2560 * k) := by
  obtain ⟨cs, h1, h2, h3⟩ := read_all_contacts_open w stream hd
  have h2560 : CONTACT_SZ = 2560 := by decide
  have hk : stream.length / CONTACT_SZ = k := by rw [h2560, hl]; omega
  rw [hk] at h2 h3
  rw [h2560] at h3
  exact ⟨cs, h1, h2, h3⟩

/-- Witness of C5 as amended: a file of 100 bytes (`k = 0`). -/
theorem truncated_file_load_witness :
    ((World.mk [] (some (List.replicate 100 0))).disk = some (List.replicate 100 0) ∧
      (List.replicate 100 (0 : Byte)).length = 2560 * 0 + 100) ∧
    ∃ cs, read_all_contacts ⟨[], some (List.replicate 100 0)⟩ true =
        .ok (true, ⟨cs, some (List.replicate 100 0)⟩) ∧
      cs.length = 0 ∧
      (cs.map Contact.bytes).flatten = (List.replicate 100 (0 : Byte)).take (2560 * 0) :=
  ⟨⟨rfl, by simp⟩,
    truncated_file_load ⟨[], some (List.replicate 100 0)⟩ (List.replicate 100 0) 0 rfl (by simp)⟩

/-- Counterexample to C5 as stated: on a file of 100 bytes (`k = 0`) that opens,
`read_all_contacts` returns `true`, not a failure. -/
theorem truncated_file_not_reported :
    read_all_contacts ⟨[], some (List.replicate 100 0)⟩ true =
      .ok (true, ⟨[], some (List.replicate 100 0)⟩) := by
  obtain ⟨cs, h1, h2, -⟩ :=
    read_all_contacts_open ⟨[], some (List.replicate 100 0)⟩ (List.replicate 100 0) rfl
  have h0 : (List.replicate 100 (0 : Byte)).length / CONTACT_SZ = 0 := by
    rw [List.length_replicate]; decide
  rw [h0] at h2
  rw [List.length_eq_zero] at h2
  rw [h1, h2]

/-- C6, as the code has it. When the file, if there is one at the start, holds
fewer than six whole blocks (fewer than `6 * 2560` bytes), every state reached
from the empty store by `add`, `edit` and `read_all_contacts` calls that
return holds at most `MAX_CONTACTS` contacts in memory. -/
theorem capacity_invariant (w0 w : World) (h0 : w0.gContacts = [])
    (hd : ∀ stream, w0.disk = some stream → stream.length < 6 * 2560)
    (hr : Reachable w0 w) : w.gContacts.length ≤ MAX_CONTACTS := by
  have key : w.gContacts.length ≤ MAX_CONTACTS ∧
      ∀ stream, w.disk = some stream → stream.length < (MAX_CONTACTS + 1) * CONTACT_SZ := by
    induction hr with
    | start => exact ⟨by rw [h0]; simp, hd⟩
    | step w w1 op _ hrun ih => exact run_small w w1 op hrun ih.1 ih.2
  exact key.1

/-- Witness of C6 as amended: one `add` of nine empty lines from the
empty store with no file. -/
theorem capacity_invariant_witness :
    ((World.mk [] none).gContacts = [] ∧
      (∀ stream, (World.mk [] none).disk = some stream → stream.length < 6 * 2560) ∧
      Reachable ⟨[], none⟩ ⟨[Contact.zeroed], none⟩) ∧
    (World.mk [Contact.zeroed] none).gContacts.length ≤ MAX_CONTACTS :=
  have hr : Reachable ⟨[], none⟩ ⟨[Contact.zeroed], none⟩ :=
    Reachable.step ⟨[], none⟩ ⟨[Contact.zeroed], none⟩
      (Op.add (named_fields.map (fun _ => Line.text [])) false) Reachable.start
      (by rw [Op.run, add_blank ⟨[], none⟩ false (by decide)]; rfl)
  ⟨⟨rfl, fun _ h => by simp at h, hr⟩,
    capacity_invariant ⟨[], none⟩ ⟨[Contact.zeroed], none⟩ rfl (fun _ h => by simp at h) hr⟩

/-- Counterexample to C6 as stated: from the empty store, over a file of six
all-zero blocks, one load reaches a state with six contacts in memory. -/
theorem capacity_exceeded_by_load :
    Reachable ⟨[], some ((List.replicate 6 Contact.zeroed).map Contact.bytes).flatten⟩
      ⟨List.replicate 6 Contact.zeroed,
        some ((List.replicate 6 Contact.zeroed).map Contact.bytes).flatten⟩ ∧
    ¬ (List.replicate 6 Contact.zeroed).length ≤ MAX_CONTACTS := by
  refine ⟨Reachable.step _ _ (Op.load true) Reachable.start ?_, by decide⟩
  rw [Op.run, read_all_contacts_flatten (List.replicate 6 Contact.zeroed) []]
  rfl

/-- C7, the code at a failing input. In an edit of the all-zero contact, a
first name of 300 bytes `A` is neither refused nor cut: afterwards the slot of
the first name is 256 bytes `A`, so it does not end with a zero byte, and the
slot of the last name, which was 256 zero bytes, starts with 44 bytes `A`. -/
theorem prompt_field_overflows_slot :
    (prompt_field Contact.zeroed Field.first_name.offset true
        [Line.text (List.replicate 300 65)]).map
      (fun r => (r.1.slot .first_name, r.1.slot .last_name)) =
      .ok (List.replicate 256 65, List.replicate 44 65 ++ List.replicate 212 0) ∧
    Contact.zeroed.slot .last_name = List.replicate 256 0 := by
  have hu : upto_zero (List.replicate 300 (65 : Byte)) = List.replicate 300 65 :=
    upto_zero_of_no_zero _ (fun b hb => by
      rw [List.eq_of_mem_replicate hb]; decide)
  have hl : (upto_zero (List.replicate 300 (65 : Byte)) ++ [0]).length = 301 := by
    rw [hu, List.length_append, List.length_replicate]; rfl
  have h : Field.first_name.offset + (upto_zero (List.replicate 300 (65 : Byte)) ++ [0]).length
      ≤ CONTACT_SZ := by rw [hl]; decide
  have hne : List.replicate 300 (65 : Byte) ≠ [] := by
    intro e
    have := congrArg List.length e
    rw [List.length_replicate] at this
    exact absurd this (by decide)
  have hfs : FIELD_SZ = 256 := rfl
  have s1 : (Contact.zeroed.write Field.first_name.offset
        (upto_zero (List.replicate 300 (65 : Byte)) ++ [0]) h).slot .first_name =
      List.replicate 256 65 := by
    rw [Contact.slot_write_head _ _ _ _ (by rw [hl]; decide), hu,
      List.take_append_of_le_length (by rw [List.length_replicate]; decide),
      List.take_replicate, hfs]
    have : min 256 300 = 256 := by decide
    rw [this]
  have s2 : (Contact.zeroed.write Field.first_name.offset
        (upto_zero (List.replicate 300 (65 : Byte)) ++ [0]) h).slot .last_name =
      List.replicate 44 65 ++ List.replicate 212 0 := by
    rw [Contact.slot_write_next _ _ .last_name _ _ (by decide) (by rw [hl]; decide)
      (by rw [hl]; decide), hl, Contact.slot_zeroed, hu,
      List.drop_append_of_le_length (by rw [List.length_replicate]; decide),
      List.drop_replicate, List.drop_replicate, hfs]
    have e1 : 300 - 256 = 44 := by decide
    have e2 : 256 - (301 - 256) = 211 := by decide
    have e3 : (212 : Nat) = 211 + 1 := by decide
    rw [e1, e2, e3, List.replicate_succ, List.append_assoc]
    rfl
  refine ⟨?_, Contact.slot_zeroed _⟩
  rw [prompt_field_overflow Contact.zeroed .first_name true _ [] (Or.inr hne) h
    (by rw [hl]; decide), map_ok, s1, s2]

/-- C10. Failed load clears state. Whatever `gContacts` held before, when the
file does not exist or cannot be opened for reading, `read_all_contacts`
returns `false` and leaves `gContacts` empty; the file is as it was. -/
theorem failed_load_clears (w : World) (readable : Bool)
    (h : w.disk = none ∨ readable = false) :
    read_all_contacts w readable = .ok (false, ⟨[], w.disk⟩) :=
  read_all_contacts_closed w readable h

/-- Witness of C10: a store of one contact and no file. -/
theorem failed_load_clears_witness :
    ((World.mk [Contact.zeroed] none).disk = none ∨ true = false) ∧
    read_all_contacts ⟨[Contact.zeroed], none⟩ true = .ok (false, ⟨[], none⟩) :=
  ⟨Or.inl rfl, failed_load_clears ⟨[Contact.zeroed], none⟩ true (Or.inl rfl)⟩

end Jerrod
